import Mathlib

/-!
Shallow embedding of the Deno manual page component (src/pages/manual.tsx):
the table-of-contents flattening, the prev/next page-index logic, the content
fetch fallback, the route interpretation, the `.md` redirect, the version
placeholder substitution, the version switcher URL and the search-overlay
keypress handler.  External collaborators (the version manifest
`versions.json`, `parseNameVersion` from `util/registry_utils.ts`) are
modelled from the spec and parameterised where noted.
-/

namespace ManualPage

/-- A table-of-contents entry: `{ name: string, children?: { childSlug: name } }`.
The JS object is an ordered string-keyed map; it is embedded as an ordered
association list. -/
structure TocEntry where
  name : String
  children : Option (List (String × String))
deriving DecidableEq

/-- `TableOfContents`: ordered mapping from slug to entry. -/
abbrev TableOfContents := List (String × TocEntry)

/-- An element of the flattened page list: `{ path, name }`. -/
structure PageListEntry where
  path : String
  name : String
deriving DecidableEq

/-- Embeds the pageList effect (manual.tsx lines 116-135): for each
`[slug, entry]` of the TOC push `{path: "/manual/" + slug, name}` and then,
if present, one entry per child `{path: "/manual/" + slug + "/" + childSlug}`. -/
def buildPageList (toc : TableOfContents) : List PageListEntry :=
  toc.flatMap fun e =>
    { path := "/manual/" ++ e.1, name := e.2.name } ::
      (e.2.children.getD []).map fun c =>
        { path := "/manual/" ++ e.1 ++ "/" ++ c.1, name := c.2 }

/-- Embeds JS `Array.prototype.findIndex`: index of the first entry whose
path equals the target, `-1` when none does (manual.tsx line 132). -/
def jsFindIndex (l : List PageListEntry) (target : String) : Int :=
  match l.findIdx? (fun page => page.path == target) with
  | some n => (n : Int)
  | none => -1

/-- Embeds JS indexing `l[i]` with an arbitrary integer index: `undefined`
(`none`) for a negative or out-of-range index. -/
def jsIndex {α : Type} (l : List α) (i : Int) : Option α :=
  if i < 0 then none else l.get? i.toNat

/-- Guard of the previous-page link (manual.tsx line 513):
`pageList[pageIndex - 1] !== undefined`. -/
def renderPrevLink (pageList : List PageListEntry) (pageIndex : Int) : Bool :=
  (jsIndex pageList (pageIndex - 1)).isSome

/-- Guard of the next-page link (manual.tsx line 526):
`pageList[pageIndex + 1] !== undefined`. -/
def renderNextLink (pageList : List PageListEntry) (pageIndex : Int) : Bool :=
  (jsIndex pageList (pageIndex + 1)).isSome

/-- The TOC `{a: {name:"A", children:{x:"X"}}, b:{name:"B"}}` of the spec's
flattening example. -/
def exampleToc : TableOfContents :=
  [("a", { name := "A", children := some [("x", "X")] }),
   ("b", { name := "B", children := none })]

/-- C1: flattening contributes, for each top-level slug `s` with name `n`, one
entry `{path: "/manual/" + s, name: n}` followed immediately by one entry per
child, all in encounter order (stated as: the page list of any TOC decomposed
around one entry is the flattening of the prefix, then the parent entry and its
child entries, then the flattening of the rest); and the example TOC flattens
to exactly the three entries of the spec. -/
theorem c1_flatten_pageList :
    buildPageList exampleToc =
      [{ path := "/manual/a", name := "A" }, { path := "/manual/a/x", name := "X" },
       { path := "/manual/b", name := "B" }] ∧
    ∀ (pre post : TableOfContents) (slug : String) (entry : TocEntry),
      buildPageList (pre ++ (slug, entry) :: post) =
        buildPageList pre ++
          ({ path := "/manual/" ++ slug, name := entry.name } ::
            (entry.children.getD []).map fun c =>
              { path := "/manual/" ++ slug ++ "/" ++ c.1, name := c.2 }) ++
          buildPageList post := by
  refine ⟨by decide, ?_⟩
  intro pre post slug entry
  simp [buildPageList]

/-- C2 counterexample: with the example page list and a path not in the list,
the current index is `-1`, yet the next-page link's guard holds (it shows the
first page), so it is not the case that neither link renders. -/
theorem c2_counterexample :
    jsFindIndex (buildPageList exampleToc) ("/manual" ++ "/nope") = -1 ∧
    renderNextLink (buildPageList exampleToc)
      (jsFindIndex (buildPageList exampleToc) ("/manual" ++ "/nope")) = true := by
  decide

/-- C2 (amended): when the current index is `-1`, the previous-page link is not
rendered, and the next-page link is rendered exactly when the page list is
non-empty (its guard checks `pageList[0]`). -/
theorem c2_links_at_minus_one :
    ∀ pageList : List PageListEntry,
      renderPrevLink pageList (-1) = false ∧
      (renderNextLink pageList (-1) = true ↔ pageList ≠ []) := by
  intro pageList
  constructor
  · simp [renderPrevLink, jsIndex]
  · cases pageList <;> simp [renderNextLink, jsIndex]

/-- Embeds JS `String.prototype.split` with a one-character separator,
character by character: `"a@b@c".split("@") = ["a","b","c"]`,
`"a".split("@") = ["a"]`, `"".split("@") = [""]`. -/
def splitChar (c : Char) : List Char → List (List Char)
  | [] => [[]]
  | x :: xs =>
    if x == c then [] :: splitChar c xs
    else
      match splitChar c xs with
      | [] => [[x]]
      | r :: rs => (x :: r) :: rs

theorem splitChar_ne_nil (c : Char) (l : List Char) : splitChar c l ≠ [] := by
  induction l with
  | nil => simp [splitChar]
  | cons x xs ih =>
    simp only [splitChar]
    split
    · simp
    · split
      · simp
      · simp

theorem splitChar_of_not_mem {c : Char} {l : List Char} (h : c ∉ l) :
    splitChar c l = [l] := by
  induction l with
  | nil => rfl
  | cons x xs ih =>
    have hx : ¬x = c := fun he => h (he ▸ List.mem_cons_self x xs)
    have hxs : c ∉ xs := fun hm => h (List.mem_cons_of_mem x hm)
    simp only [splitChar, beq_iff_eq, hx, if_false, ih hxs]

theorem splitChar_append {c : Char} {n l : List Char} {r : List Char}
    {rs : List (List Char)} (h : c ∉ n) (hl : splitChar c l = r :: rs) :
    splitChar c (n ++ l) = (n ++ r) :: rs := by
  induction n with
  | nil => simpa using hl
  | cons x xs ih =>
    have hx : ¬x = c := fun he => h (he ▸ List.mem_cons_self x xs)
    have hxs : c ∉ xs := fun hm => h (List.mem_cons_of_mem x hm)
    simp only [List.cons_append, List.append_eq, splitChar, beq_iff_eq, hx, if_false]
    rw [ih hxs]

theorem splitChar_around {c : Char} {n v : List Char} (hn : c ∉ n) (hv : c ∉ v) :
    splitChar c (n ++ c :: v) = [n, v] := by
  have hcv : splitChar c (c :: v) = [] :: [v] := by
    simp only [splitChar, beq_self_eq_true, if_true, splitChar_of_not_mem hv]
  simpa using splitChar_append hn hcv

/-- Modelled from the spec: `parseNameVersion` (imported from
`util/registry_utils.ts`, which is not under src/) parses an identifier of the
embedded `name@version` form, returning the name and the version when one is
embedded (`undefined` otherwise), splitting on the first `@`. -/
def parseNameVersion (s : String) : String × Option String :=
  match splitChar '@' s.data with
  | [] => (s, none)
  | [n] => (String.mk n, none)
  | n :: v :: _ => (String.mk n, some (String.mk v))

/-- Embeds the JS expression `x || d` for `x : string | undefined`:
`undefined` and `""` are falsy and fall through to the default. -/
def jsOrElse (v : Option String) (d : String) : String :=
  match v with
  | none => d
  | some s => if s == "" then d else s

/-- Embeds the `(version, path)` useMemo (manual.tsx lines 44-49).
`cli` stands for `versionMeta.cli`, the CLI version list of the external
manifest `versions.json` (not under src/; per the spec a list of known CLI
versions whose first element is the latest release); JS `versionMeta.cli[0]`
is embedded as `cli.headD ""` (`undefined` conflated with `""`, which the
component's truthiness checks do not distinguish). -/
def routeVersionPath (cli : List String) (rest : List String) : String × String :=
  let identifier := rest.headD ""
  let pathParts := rest.tail
  let path := if pathParts.isEmpty then "" else "/" ++ String.intercalate "/" pathParts
  let version := jsOrElse (parseNameVersion identifier).2 (cli.headD "")
  (version, if path == "" then "/introduction" else path)

theorem mk_ne_empty {v : List Char} (hv : v ≠ []) : String.mk v ≠ "" := by
  intro h
  exact hv (congrArg String.data h)

/-- C4: a first route segment of the form `name@version` (with a non-empty
version and `@` occurring only as the separator) yields exactly the embedded
version; a first segment without `@`, or an empty segment list, yields the
manifest's first CLI version. -/
theorem c4_route_version :
    (∀ (cli : List String) (n v : List Char) (rest : List String),
      ('@' : Char) ∉ n → ('@' : Char) ∉ v → v ≠ [] →
      (routeVersionPath cli (String.mk (n ++ '@' :: v) :: rest)).1 = String.mk v) ∧
    (∀ (cli : List String) (id : String) (rest : List String),
      ('@' : Char) ∉ id.data →
      (routeVersionPath cli (id :: rest)).1 = cli.headD "") ∧
    (∀ cli : List String, (routeVersionPath cli []).1 = cli.headD "") := by
  refine ⟨?_, ?_, ?_⟩
  · intro cli n v rest hn hv hne
    have hsplit := splitChar_around hn hv
    have hbe : (String.mk v == "") = false := by
      rw [beq_eq_false_iff_ne]
      exact mk_ne_empty hne
    simp only [routeVersionPath, parseNameVersion, List.headD, jsOrElse]
    rw [hsplit]
    simp [hbe]
  · intro cli id rest h
    simp only [routeVersionPath, parseNameVersion, List.headD, jsOrElse]
    rw [splitChar_of_not_mem h]
  · intro cli
    rfl

/-- C4 witness: `["std@0.125.0"]` yields version "0.125.0"; `["filesystem"]`
and the empty segment list yield the manifest's first CLI version. -/
theorem c4_route_version_witness :
    (routeVersionPath ["1.19.0"] [String.mk ("std".data ++ '@' :: "0.125.0".data)]).1 =
      "0.125.0" ∧
    (routeVersionPath ["1.19.0"] ["filesystem"]).1 = "1.19.0" ∧
    (routeVersionPath ["1.19.0"] []).1 = "1.19.0" :=
  ⟨c4_route_version.1 ["1.19.0"] "std".data "0.125.0".data [] (by decide) (by decide)
      (by decide),
   c4_route_version.2.1 ["1.19.0"] "filesystem" [] (by decide),
   c4_route_version.2.2 ["1.19.0"]⟩

/-- C5: with no remaining segments after the first, the resolved path is
`/introduction`; with remaining segments `p :: ps` it is `/` followed by the
segments joined with `/`. -/
theorem c5_route_path :
    (∀ cli : List String, (routeVersionPath cli []).2 = "/introduction") ∧
    (∀ (cli : List String) (id : String),
      (routeVersionPath cli [id]).2 = "/introduction") ∧
    (∀ (cli : List String) (id p : String) (ps : List String),
      (routeVersionPath cli (id :: p :: ps)).2 =
        "/" ++ String.intercalate "/" (p :: ps)) := by
  refine ⟨fun _ => rfl, fun _ _ => rfl, ?_⟩
  intro cli id p ps
  have hne : ("/" ++ String.intercalate "/" (p :: ps) == "") = false := by
    rw [beq_eq_false_iff_ne]
    intro h
    have := congrArg String.data h
    simp at this
  simp only [routeVersionPath, List.tail_cons, List.isEmpty_cons, Bool.false_eq_true,
    if_false, hne]

/-- C10: the derived version is never the empty string (hence never the JS
falsy values `""`/`undefined`), provided the manifest's first CLI version is a
non-empty string; so the unversioned branches guarded by version truthiness
are unreachable from route interpretation. -/
theorem c10_version_nonempty :
    ∀ (cli : List String) (rest : List String), cli.headD "" ≠ "" →
      (routeVersionPath cli rest).1 ≠ "" := by
  intro cli rest hcli
  simp only [routeVersionPath]
  cases h : (parseNameVersion (rest.headD "")).2 with
  | none => simpa [jsOrElse] using hcli
  | some s =>
    simp only [jsOrElse]
    by_cases hs : s = ""
    · rw [if_pos (show (s == "") = true by simp [hs])]
      exact hcli
    · rw [if_neg (show ¬(s == "") = true by simp [hs])]
      exact hs

/-- C10 witness: with manifest head "1.19.0", both a versioned and an
unversioned concrete route yield a non-empty version. -/
theorem c10_version_nonempty_witness :
    (["1.19.0"] : List String).headD "" ≠ "" ∧
    (routeVersionPath ["1.19.0"] ["std@0.125.0", "x"]).1 ≠ "" ∧
    (routeVersionPath ["1.19.0"] ["introduction"]).1 ≠ "" :=
  ⟨by decide,
   c10_version_nonempty ["1.19.0"] ["std@0.125.0", "x"] (by decide),
   c10_version_nonempty ["1.19.0"] ["introduction"] (by decide)⟩

/-- Checks that `p` is a prefix of `l`, character by character (the matcher
used by the suffix test and the global literal replacements below). -/
def matchesAt : List Char → List Char → Bool
  | [], _ => true
  | _ :: _, [] => false
  | p :: ps, x :: xs => p == x && matchesAt ps xs

/-- Embeds JS `s.endsWith(suffix)` as a reversed prefix match. -/
def endsWithStr (s suffix : String) : Bool :=
  matchesAt suffix.data.reverse s.data.reverse

/-- Embeds `path.replace(/\.md$/, "")` (manual.tsx lines 55-58): drop a
trailing ".md" when present. -/
def replaceMdSuffix (s : String) : String :=
  if endsWithStr s ".md" then String.mk (s.data.take (s.data.length - 3)) else s

/-- What the component does for a given route: issue a client redirect
(`replace(pattern, url)`) or render the page for `(version, path)`. -/
inductive RenderResult where
  | redirect (pattern url : String)
  | page (version path : String)
deriving DecidableEq

/-- Embeds the top of the `Manual` component (manual.tsx lines 44-62): derive
`(version, path)` from the route segments, and when the path ends in `.md`
redirect to the extensionless route (keeping the `@version` part when the
version is non-empty) without rendering content. -/
def manualRender (cli : List String) (rest : List String) : RenderResult :=
  let vp := routeVersionPath cli rest
  if endsWithStr vp.2 ".md" then
    .redirect "/[...rest]"
      ("/manual" ++ (if vp.1 != "" then "@" ++ vp.1 else "") ++ replaceMdSuffix vp.2)
  else
    .page vp.1 vp.2

/-- C6: whenever the resolved path ends in ".md", the component issues a
redirect whose target is the same route with the trailing ".md" removed and
with the version prefix preserved, and it does not render a page (no content
is ever set). -/
theorem c6_md_redirect :
    ∀ (cli : List String) (rest : List String),
      endsWithStr (routeVersionPath cli rest).2 ".md" = true →
      manualRender cli rest =
        .redirect "/[...rest]"
          ("/manual" ++
            (if (routeVersionPath cli rest).1 != "" then
              "@" ++ (routeVersionPath cli rest).1 else "") ++
            String.mk ((routeVersionPath cli rest).2.data.take
              ((routeVersionPath cli rest).2.data.length - 3))) ∧
      ∀ v p, manualRender cli rest ≠ .page v p := by
  intro cli rest h
  constructor
  · simp only [manualRender, replaceMdSuffix, h, if_true]
  · intro v p
    simp only [manualRender, h, if_true]
    intro hcontra
    exact RenderResult.noConfusion hcontra

/-- C6 witness: the concrete route `manual@1.19.0/intro.md` resolves to path
`/intro.md` and redirects to `/manual@1.19.0/intro` without rendering. -/
theorem c6_md_redirect_witness :
    endsWithStr (routeVersionPath ["1.12.0"] ["x@1.19.0", "intro.md"]).2 ".md" = true ∧
    manualRender ["1.12.0"] ["x@1.19.0", "intro.md"] =
      RenderResult.redirect "/[...rest]" "/manual@1.19.0/intro" ∧
    manualRender ["1.12.0"] ["x@1.19.0", "intro.md"] ≠
      RenderResult.page "1.19.0" "/intro.md" := by
  have h := c6_md_redirect ["1.12.0"] ["x@1.19.0", "intro.md"] (by decide)
  exact ⟨by decide, h.1.trans (by decide), h.2 "1.19.0" "/intro.md"⟩

/-- Outcome of the content fetch: an HTTP response with a status and body
text, or a network failure (a rejected fetch/text promise). -/
inductive FetchResult where
  | ok (status : Nat) (body : String)
  | networkError
deriving DecidableEq

/-- The fixed fallback Markdown string set on any fetch failure
(manual.tsx line 162). -/
def notFoundContent : String :=
  "# 404 - Not Found\nWhoops, the page does not seem to exist."

/-- Embeds the content fetch effect (manual.tsx lines 147-164): a 200
response stores the body, a non-200 status throws and the catch handler
stores the fixed not-found message, as does any network failure. -/
def contentAfterFetch : FetchResult → String
  | .ok status body => if status = 200 then body else notFoundContent
  | .networkError => notFoundContent

/-- C3: every fetch with a non-200 status yields the fixed not-found content,
independently of the response body (so never the body, unless the body happens
to equal the fixed message), and a network failure yields the same fallback. -/
theorem c3_fetch_fallback :
    (∀ (status : Nat) (body : String), status ≠ 200 →
      contentAfterFetch (.ok status body) = notFoundContent) ∧
    (∀ (status : Nat) (body : String), status ≠ 200 → body ≠ notFoundContent →
      contentAfterFetch (.ok status body) ≠ body) ∧
    contentAfterFetch .networkError = notFoundContent := by
  refine ⟨?_, ?_, rfl⟩
  · intro status body h
    simp [contentAfterFetch, h]
  · intro status body h hb
    simp [contentAfterFetch, h]
    exact fun hc => (hb hc.symm).elim

/-- C3 witness: a concrete 404 response with body "oops" displays the fixed
not-found message and not the body. -/
theorem c3_fetch_fallback_witness :
    contentAfterFetch (.ok 404 "oops") = notFoundContent ∧
    contentAfterFetch (.ok 404 "oops") ≠ "oops" ∧
    contentAfterFetch .networkError = notFoundContent :=
  ⟨c3_fetch_fallback.1 404 "oops" (by decide),
   c3_fetch_fallback.2.1 404 "oops" (by decide) (by decide),
   c3_fetch_fallback.2.2⟩

/-- Embeds `gotoVersion` (manual.tsx lines 216-221): the concrete URL pushed
is `/manual` plus `@newVersion` when the new version is non-empty, plus the
current path. -/
def gotoVersionURL (newVersion path : String) : String :=
  "/manual" ++ (if newVersion != "" then "@" ++ newVersion else "") ++ path

/-- C8: selecting version `v ≠ ""` at path `/introduction` navigates to
`/manual@v/introduction`; selecting the empty-string version navigates to the
unversioned `/manual/introduction`. -/
theorem c8_gotoVersion :
    (∀ v : String, v ≠ "" →
      gotoVersionURL v "/introduction" = "/manual@" ++ v ++ "/introduction") ∧
    gotoVersionURL "" "/introduction" = "/manual/introduction" := by
  refine ⟨?_, by decide⟩
  intro v hv
  simp [gotoVersionURL, hv]
  rfl

/-- C8 witness: concrete navigation targets for version "1.19.0" and for the
empty-string version. -/
theorem c8_gotoVersion_witness :
    gotoVersionURL "1.19.0" "/introduction" = "/manual@1.19.0/introduction" ∧
    gotoVersionURL "" "/introduction" = "/manual/introduction" :=
  ⟨(c8_gotoVersion.1 "1.19.0" (by decide)).trans (by decide), c8_gotoVersion.2⟩

/-- Embeds the global `keypress` handler `onPress` (manual.tsx lines 203-211)
as a transition on the overlay's `isOpen` state: the result is the new state
paired with whether the handler fired (`preventDefault` + `onOpen`). -/
def onPressKey (isOpen : Bool) (key : String) : Bool × Bool :=
  if !isOpen && (key == "/" || key == "s") then (true, true) else (isOpen, false)

/-- C9: pressing "/" (or "s") while the overlay is closed opens it; while it
is already open, any keypress leaves the state open and has no effect. -/
theorem c9_search_keypress :
    onPressKey false "/" = (true, true) ∧
    onPressKey false "s" = (true, true) ∧
    ∀ key : String, onPressKey true key = (true, false) := by
  refine ⟨by decide, by decide, ?_⟩
  intro key
  simp [onPressKey]

/-- Worker of the global literal replacement `s.replace(/tok/g, repl)` for a
token `p :: pr`: with skip counter `n + 1` the head character (consumed by a
previous match) is dropped; with counter `0`, a match of the token at the head
emits the replacement and schedules the `pr.length` remaining matched
characters to be skipped, and a non-match keeps the head character. -/
def replaceGo (p : Char) (pr repl : List Char) : Nat → List Char → List Char
  | _, [] => []
  | n + 1, _ :: xs => replaceGo p pr repl n xs
  | 0, x :: xs =>
    if matchesAt (p :: pr) (x :: xs) then repl ++ replaceGo p pr repl pr.length xs
    else x :: replaceGo p pr repl 0 xs

/-- Embeds JS `s.replace(/tok/g, repl)` for a literal token `pat`:
non-overlapping, left to right. -/
def replaceAll (pat repl s : List Char) : List Char :=
  match pat with
  | [] => s
  | p :: pr => replaceGo p pr repl 0 s

/-- Embeds the `stdVersion` derivation (manual.tsx lines 223-226): the
manifest's first std version when the version is `undefined`, else the
`cli_to_std` mapping of the version, falling back to the first std version
when the mapping has no entry.  `std` and `cliToStd` stand for
`versionMeta.std` and `versionMeta.cli_to_std` of the external manifest. -/
def stdVersion (version : Option String) (std : List String)
    (cliToStd : List (String × String)) : String :=
  match version with
  | none => std.headD ""
  | some v =>
    match cliToStd.lookup v with
    | some s => s
    | none => std.headD ""

/-- Embeds the Markdown `source` prop (manual.tsx lines 500-503): the content
with all `$STD_VERSION` occurrences replaced by the std version and then all
`$CLI_VERSION` occurrences replaced by the current version. -/
def displayedSource (content version stdV : String) : String :=
  String.mk (replaceAll "$CLI_VERSION".data version.data
    (replaceAll "$STD_VERSION".data stdV.data content.data))

/-- `segs` interleaved with the separator `sep`: the canonical shape of a text
whose separator occurrences are exactly the listed positions. -/
def joinSep (sep : List Char) : List (List Char) → List Char
  | [] => []
  | [s] => s
  | s :: t :: rest => s ++ sep ++ joinSep sep (t :: rest)

theorem matchesAt_append_self (p l : List Char) : matchesAt p (p ++ l) = true := by
  induction p with
  | nil => rfl
  | cons x xs ih => simp [matchesAt, ih]

theorem matchesAt_head_ne {c x : Char} (h : x ≠ c) (pr xs : List Char) :
    matchesAt (c :: pr) (x :: xs) = false := by
  simp [matchesAt, Ne.symm h]

theorem replaceGo_skip (p : Char) (pr repl : List Char) (n : Nat) (s : List Char) :
    replaceGo p pr repl n s = replaceGo p pr repl 0 (s.drop n) := by
  induction s generalizing n with
  | nil => cases n <;> rfl
  | cons x xs ih =>
    cases n with
    | zero => rfl
    | succ m => simpa [replaceGo] using ih m

theorem replaceGo_not_mem {c : Char} {pr repl s : List Char} (h : c ∉ s) :
    replaceGo c pr repl 0 s = s := by
  induction s with
  | nil => rfl
  | cons x xs ih =>
    have hx : x ≠ c := fun he => h (he ▸ List.mem_cons_self x xs)
    have hxs : c ∉ xs := fun hm => h (List.mem_cons_of_mem x hm)
    simp [replaceGo, matchesAt_head_ne hx, ih hxs]

theorem replaceGo_around {c : Char} {pr repl a b : List Char} (h : c ∉ a) :
    replaceGo c pr repl 0 (a ++ (c :: pr) ++ b) =
      a ++ repl ++ replaceGo c pr repl 0 b := by
  induction a with
  | nil =>
    have hm : matchesAt (c :: pr) (c :: (pr ++ b)) = true := by
      simpa using matchesAt_append_self (c :: pr) b
    simp only [List.nil_append, List.cons_append, List.append_eq, replaceGo, hm, if_true]
    rw [replaceGo_skip, List.drop_left]
  | cons x xs ih =>
    have hx : x ≠ c := fun he => h (he ▸ List.mem_cons_self x xs)
    have hxs : c ∉ xs := fun hm => h (List.mem_cons_of_mem x hm)
    simp only [List.cons_append, replaceGo, matchesAt_head_ne hx, if_false]
    simpa using ih hxs

theorem replaceGo_no_match {c : Char} {pr repl : List Char} {s : List Char}
    (h : ∀ a b, s = a ++ c :: b → matchesAt pr b = false) :
    replaceGo c pr repl 0 s = s := by
  induction s with
  | nil => rfl
  | cons x xs ih =>
    have hxs : ∀ a b, xs = a ++ c :: b → matchesAt pr b = false := by
      intro a b hab
      exact h (x :: a) b (by rw [hab]; rfl)
    by_cases hx : x = c
    · subst hx
      have hm : matchesAt pr xs = false := h [] xs rfl
      simp [replaceGo, matchesAt, hm, ih hxs]
    · simp [replaceGo, matchesAt_head_ne hx, ih hxs]

theorem occ_in_right {c : Char} {u : List Char} :
    ∀ {v a b : List Char}, c ∉ u → u ++ v = a ++ c :: b →
      ∃ a2, a = u ++ a2 ∧ v = a2 ++ c :: b := by
  induction u with
  | nil => exact fun _ h => ⟨_, rfl, h⟩
  | cons x xs ih =>
    intro v a b hc h
    cases a with
    | nil =>
      have hx : x = c := by simpa using congrArg (fun l => l.headD c) h
      exact absurd (hx ▸ List.mem_cons_self x xs) hc
    | cons y a1 =>
      have hx : x = y ∧ xs ++ v = a1 ++ c :: b := by simpa using h
      obtain ⟨a2, h1, h2⟩ := ih (fun hm => hc (List.mem_cons_of_mem x hm)) hx.2
      exact ⟨a2, by simp [hx.1, h1], h2⟩

theorem joinSep_occurrence {c : Char} {q : List Char} (hq : c ∉ q) :
    ∀ {segs : List (List Char)} {a b : List Char},
      (∀ s ∈ segs, c ∉ s) → joinSep (c :: q) segs = a ++ c :: b →
      ∃ r, b = q ++ r := by
  intro segs
  induction segs with
  | nil =>
    intro a b _ h
    rw [show joinSep (c :: q) [] = [] from rfl] at h
    cases a <;> simp at h
  | cons s rest ih =>
    intro a b hs h
    cases rest with
    | nil =>
      rw [show joinSep (c :: q) [s] = s from rfl] at h
      exact absurd (by rw [h]; simp) (hs s (by simp))
    | cons t rest2 =>
      have hshape : s ++ (c :: (q ++ joinSep (c :: q) (t :: rest2))) = a ++ c :: b := by
        simpa [joinSep, List.append_assoc] using h
      obtain ⟨a2, _, hv⟩ := occ_in_right (hs s (by simp)) hshape
      cases a2 with
      | nil => exact ⟨joinSep (c :: q) (t :: rest2), by simpa using hv.symm⟩
      | cons y a3 =>
        have hy : y = c ∧ q ++ joinSep (c :: q) (t :: rest2) = a3 ++ c :: b := by
          constructor
          · simpa using (congrArg (fun l => l.headD c) hv).symm
          · simpa using congrArg List.tail hv
        obtain ⟨a4, _, hv4⟩ := occ_in_right hq hy.2
        exact ih (fun u hu => hs u (List.mem_cons_of_mem s hu)) hv4

theorem replaceGo_joinSep {c : Char} {pr repl : List Char} :
    ∀ {segs : List (List Char)}, (∀ s ∈ segs, c ∉ s) →
      replaceGo c pr repl 0 (joinSep (c :: pr) segs) = joinSep repl segs := by
  intro segs
  induction segs with
  | nil => intro _; rfl
  | cons s rest ih =>
    intro hs
    cases rest with
    | nil => exact replaceGo_not_mem (hs s (by simp))
    | cons t rest2 =>
      rw [show joinSep (c :: pr) (s :: t :: rest2) =
            s ++ (c :: pr) ++ joinSep (c :: pr) (t :: rest2) from rfl]
      rw [replaceGo_around (hs s (by simp)),
        ih (fun u hu => hs u (List.mem_cons_of_mem s hu))]
      rfl

theorem not_mem_joinSep {c : Char} {sep : List Char} (hsep : c ∉ sep) :
    ∀ {segs : List (List Char)}, (∀ s ∈ segs, c ∉ s) → c ∉ joinSep sep segs := by
  intro segs
  induction segs with
  | nil => intro _; simp [joinSep]
  | cons s rest ih =>
    intro hs
    cases rest with
    | nil => exact hs s (by simp)
    | cons t rest2 =>
      rw [show joinSep sep (s :: t :: rest2) =
            s ++ sep ++ joinSep sep (t :: rest2) from rfl]
      simp only [List.mem_append, not_or]
      exact ⟨⟨hs s (by simp), hsep⟩,
        ih (fun u hu => hs u (List.mem_cons_of_mem s hu))⟩

theorem replaceGo_ignores_joined {c : Char} {pr q repl : List Char} (hq : c ∉ q)
    (hcross : ∀ r, matchesAt pr (q ++ r) = false) {segs : List (List Char)}
    (hs : ∀ s ∈ segs, c ∉ s) :
    replaceGo c pr repl 0 (joinSep (c :: q) segs) = joinSep (c :: q) segs := by
  apply replaceGo_no_match
  intro a b hab
  obtain ⟨r, hr⟩ := joinSep_occurrence hq hs hab
  rw [hr]
  exact hcross r

theorem cross_no_match :
    ∀ r : List Char, matchesAt "STD_VERSION".data ("CLI_VERSION".data ++ r) = false := by
  intro r
  rw [show "STD_VERSION".data = 'S' :: "TD_VERSION".data from rfl,
    show "CLI_VERSION".data = 'C' :: "LI_VERSION".data from rfl]
  simp [matchesAt]

/-- C7: the std version shown is the manifest's first std version when the
version is unset, the `cli_to_std` mapping of the version when it has an
entry, and the first std version again when it has none; and on content of
the canonical shape (segments free of the placeholder lead character,
interleaved with a placeholder token), every `$STD_VERSION` occurrence is
replaced by the std version and every `$CLI_VERSION` occurrence by the
current version. -/
theorem c7_token_substitution :
    (∀ (std : List String) (m : List (String × String)),
      stdVersion none std m = std.headD "") ∧
    (∀ (v s : String) (std : List String) (m : List (String × String)),
      m.lookup v = some s → stdVersion (some v) std m = s) ∧
    (∀ (v : String) (std : List String) (m : List (String × String)),
      m.lookup v = none → stdVersion (some v) std m = std.headD "") ∧
    (∀ (segs : List (List Char)) (ver stdV : String),
      (∀ s ∈ segs, ('$' : Char) ∉ s) → ('$' : Char) ∉ stdV.data →
      displayedSource (String.mk (joinSep "$STD_VERSION".data segs)) ver stdV =
        String.mk (joinSep stdV.data segs)) ∧
    (∀ (segs : List (List Char)) (ver stdV : String),
      (∀ s ∈ segs, ('$' : Char) ∉ s) →
      displayedSource (String.mk (joinSep "$CLI_VERSION".data segs)) ver stdV =
        String.mk (joinSep ver.data segs)) := by
  refine ⟨fun _ _ => rfl, ?_, ?_, ?_, ?_⟩
  · intro v s std m h
    simp [stdVersion, h]
  · intro v std m h
    simp [stdVersion, h]
  · intro segs ver stdV hsegs hstd
    simp only [displayedSource, replaceAll,
      show ("$STD_VERSION".data) = '$' :: "STD_VERSION".data from rfl,
      show ("$CLI_VERSION".data) = '$' :: "CLI_VERSION".data from rfl]
    rw [replaceGo_joinSep hsegs]
    rw [replaceGo_not_mem (not_mem_joinSep hstd hsegs)]
  · intro segs ver stdV hsegs
    simp only [displayedSource, replaceAll,
      show ("$STD_VERSION".data) = '$' :: "STD_VERSION".data from rfl,
      show ("$CLI_VERSION".data) = '$' :: "CLI_VERSION".data from rfl]
    rw [replaceGo_ignores_joined (by decide) cross_no_match hsegs]
    rw [replaceGo_joinSep hsegs]

/-- C7 witness: mapping lookups with and without an entry, and a concrete
substitution of each token. -/
theorem c7_token_substitution_witness :
    stdVersion none ["0.125.0"] [("1.19.0", "0.125.0")] = "0.125.0" ∧
    stdVersion (some "1.19.0") ["0.125.0"] [("1.19.0", "0.125.0")] = "0.125.0" ∧
    stdVersion (some "main") ["0.125.0"] [("1.19.0", "0.125.0")] = "0.125.0" ∧
    displayedSource (String.mk (joinSep "$STD_VERSION".data ["std ".data, " end".data]))
      "1.19.0" "0.125.0" = String.mk (joinSep "0.125.0".data ["std ".data, " end".data]) ∧
    displayedSource (String.mk (joinSep "$CLI_VERSION".data ["deno ".data, " end".data]))
      "1.19.0" "0.125.0" = String.mk (joinSep "1.19.0".data ["deno ".data, " end".data]) :=
  ⟨c7_token_substitution.1 ["0.125.0"] [("1.19.0", "0.125.0")],
   c7_token_substitution.2.1 "1.19.0" "0.125.0" ["0.125.0"] [("1.19.0", "0.125.0")]
     (by decide),
   c7_token_substitution.2.2.1 "main" ["0.125.0"] [("1.19.0", "0.125.0")] (by decide),
   c7_token_substitution.2.2.2.1 ["std ".data, " end".data] "1.19.0" "0.125.0"
     (by decide) (by decide),
   c7_token_substitution.2.2.2.2 ["deno ".data, " end".data] "1.19.0" "0.125.0"
     (by decide)⟩

end ManualPage
